import Mathlib

/-!
Verification of the cbr-system case-based-reasoning core.

This file gives a shallow embedding of the repository code
(src/tree.py, src/attributes.py, src/case.py, src/matcher.py) and proves
or refutes the frozen claims about it.

Modelling conventions:
* Python numbers (ints and floats) are modelled as exact rationals.
* Fallible Python code is modelled with the Except monad; the inductive
  PyErr names the Python exception classes that the modelled fragment can
  raise.
* Python object identity, which a value-level embedding cannot express,
  is handled at the two spots where the source depends on it; each spot
  carries a comment explaining the treatment.
-/

/-- The Python exception classes that can arise in the modelled fragment. -/
inductive PyErr where
  | keyError
  | attributeError
  | typeError
  | runtimeError
  | valueError
  | indexError
  | zeroDivisionError
  | notImplementedError
  | adaptationError
  deriving DecidableEq, Repr

/-- A Python attribute value in scope for the core: a number or a string. -/
inductive PyVal where
  | num (q : ℚ)
  | str (s : String)
  deriving DecidableEq, Repr

/-- Python int() applied to an exact rational: truncation toward zero
(the numerator and denominator are coprime and the denominator positive,
so Int.div on them truncates toward zero exactly as CPython does). -/
def pyInt (q : ℚ) : ℤ := q.num.tdiv q.den

/-- Python 2 cross-type ordering for the values in scope, used by the
comparison in LessIsPerfect.similarity: numbers compare numerically,
strings lexicographically, and a number is smaller than any string
(CPython 2 orders objects of different types by type name, and
the names int and float sort before str). -/
def pyValLt : PyVal → PyVal → Bool
  | .num a, .num b => a < b
  | .str a, .str b => a < b
  | .num _, .str _ => true
  | .str _, .num _ => false

/-- tree.py Node: a named tree node carrying a relatedness value.
Children are nested; a path entry is reported as the (name, value) pair
of the node.  Python compares Node objects by identity; in the registered
trees all node names are distinct, so (name, value) pairs identify nodes
and structural equality of the pairs coincides with identity. -/
inductive PyTree where
  | node (name : String) (value : ℚ) (children : List PyTree)

def PyTree.name : PyTree → String
  | .node n _ _ => n

def PyTree.value : PyTree → ℚ
  | .node _ v _ => v

def PyTree.children : PyTree → List PyTree
  | .node _ _ cs => cs

/-- One entry of a root-to-node path: the (name, value) pair of a node. -/
abbrev PathEntry := String × ℚ

mutual
/-- tree.py Tree.find_path: depth-first search for a node with the given
name; returns the root-to-node path, or none when absent.  The source
returns [root] on a name match, None on a childless non-match, and
otherwise prefixes root to the first successful search of a child. -/
def findPath : PyTree → String → Option (List PathEntry)
  | .node n v cs, nm =>
    if n = nm then some [(n, v)]
    else if cs.isEmpty then none
    else (findPathList cs nm).map (fun p => (n, v) :: p)

/-- Helper for findPath: the source's for-loop over children, returning
the first non-None recursive result. -/
def findPathList : List PyTree → String → Option (List PathEntry)
  | [], _ => none
  | c :: cs, nm =>
    match findPath c nm with
    | some p => some p
    | none => findPathList cs nm
end

/-- The longest common prefix of two lists (specification-side notion used
to state what Tree.find_common_path computes). -/
def lcp2 {α : Type} [DecidableEq α] : List α → List α → List α
  | a :: as_, b :: bs => if a = b then a :: lcp2 as_ bs else []
  | _, _ => []

/-- The longest common prefix of a family of lists, the first list being
the seed (specification-side notion). -/
def lcpAll {α : Type} [DecidableEq α] : List (List α) → List α
  | [] => []
  | p :: ps => ps.foldl lcp2 p

/-- tree.py Tree.find_common_path main loop: starting at index i with
fuel = (min length) - i, compare the i-th node of every path; append the
node and continue while they all agree, stop at the first disagreement.
The source compares the i-th entries with !=, i.e. node identity; see
the PyTree comment. -/
def commonFrom (paths : List (List PathEntry)) : ℕ → ℕ → List PathEntry
  | _, 0 => []
  | i, fuel + 1 =>
    let steps := paths.map (fun p => p.getD i ("", 0))
    match steps with
    | [] => []
    | v :: rest =>
      if rest.all (fun s => s = v) then v :: commonFrom paths (i + 1) fuel
      else []

/-- tree.py Tree.find_common_path: look up each name's path (None as soon
as one is absent), then run the index loop up to the minimum path length.
An empty names list reaches min([]) and raises ValueError. -/
def findCommonPath (t : PyTree) (names : List String) :
    Except PyErr (Option (List PathEntry)) :=
  match names.mapM (findPath t) with
  | none => .ok none
  | some paths =>
    match paths with
    | [] => .error .valueError
    | p :: ps =>
      let m := ps.foldl (fun a q => Nat.min a q.length) p.length
      .ok (some (commonFrom (p :: ps) 0 m))

/-- tree.py Tree.find_common_value: the value stored at the last node of
the common path; path[-1] on an empty list would raise IndexError. -/
def findCommonValue (t : PyTree) (names : List String) :
    Except PyErr (Option ℚ) := do
  match (← findCommonPath t names) with
  | none => .ok none
  | some path =>
    match path.getLast? with
    | none => .error .indexError
    | some last => .ok (some last.2)

/-- The similarity strategy of an attributes.py class: which override of
similarity is active for the instance (per the class hierarchy of
attributes.py: Attribute, ExactMatch, LinearMatch, LessIsPerfect,
TableMatch, TreeMatch). -/
inductive SimKind where
  | plain
  | exact
  | linear
  | lessIsPerfect
  | table (tbl : List (PyVal × List (PyVal × ℚ)))
  | tree (t : PyTree)

/-- An attributes.py attribute instance.  The fields mirror the class
data of the source: name is the class name, weight the class constant
_weight, scale the class constant _scale of the linear kinds, and the
three booleans the _matching / _adaptable (NumericAdapt mixin) /
_adjustable (LinearAdjust mixin) class flags.  numeric records whether
the class derives Numeric, whose _set_value coerces through int(). -/
structure Attr where
  name : String
  value : PyVal
  weight : ℚ
  scale : ℚ
  matching : Bool
  adaptable : Bool
  adjustable : Bool
  numeric : Bool
  simKind : SimKind

/-- The numeric content of a value; a string where the source would do
arithmetic raises TypeError. -/
def asNum : PyVal → Except PyErr ℚ
  | .num q => .ok q
  | .str _ => .error .typeError

/-- Python float() as used by NumericAdapt.adapt_distance; attribute
values of Numeric classes are ints, so the string case (which CPython
would try to parse, raising ValueError on the values that occur) is
modelled as the error. -/
def pyFloat : PyVal → Except PyErr ℚ
  | .num q => .ok q
  | .str _ => .error .valueError

/-- attributes.py LinearMatch.similarity body:
1.0 - abs(self.value - other.value) / self._scale.  A zero scale would
raise ZeroDivisionError; no registered class has one. -/
def linearBody (a b : Attr) : Except PyErr ℚ := do
  let x ← asNum a.value
  let y ← asNum b.value
  if a.scale = 0 then .error .zeroDivisionError
  else .ok (1 - |x - y| / a.scale)

/-- attributes.py similarity dispatch, by active override:
* Attribute.similarity: weight on a name match, else 0;
* ExactMatch.similarity: weight on a name and value match, else 0;
* LinearMatch.similarity: the linear formula (no weight factor);
* LessIsPerfect.similarity: weight when other.value < self.value, else
  the LinearMatch formula;
* TableMatch.similarity: nested table lookup, RuntimeError when either
  value is missing;
* TreeMatch.similarity: 1.0 on equal values (not weight), else the
  nearest-common-ancestor value of the two values in the class tree.
  When a value is not in the tree the source returns None, which every
  caller immediately adds to a float; the TypeError of that addition is
  reported here at the boundary. -/
def attrSimilarity (a b : Attr) : Except PyErr ℚ :=
  match a.simKind with
  | .plain => .ok (if a.name = b.name then a.weight else 0)
  | .exact => .ok (if a.name = b.name ∧ a.value = b.value then a.weight else 0)
  | .linear => linearBody a b
  | .lessIsPerfect =>
    if pyValLt b.value a.value then .ok a.weight else linearBody a b
  | .table tbl =>
    match tbl.find? (fun r => r.1 = a.value) with
    | none => .error .runtimeError
    | some row =>
      match row.2.find? (fun e => e.1 = b.value) with
      | none => .error .runtimeError
      | some e => .ok e.2
  | .tree t =>
    if a.value = b.value then .ok 1
    else
      match a.value, b.value with
      | .str sa, .str sb =>
        match findCommonValue t [sa, sb] with
        | .ok (some v) => .ok v
        | .ok none => .error .typeError
        | .error e => .error e
      | _, _ => .error .typeError

/-- attributes.py NumericAdapt.adapt_distance:
float(other.value) / self.value.  Only adaptable classes define it
(Attribute.adapt_distance raises NotImplementedError); a zero own value
raises ZeroDivisionError. -/
def adaptDistance (a b : Attr) : Except PyErr ℚ :=
  if a.adaptable then do
    let y ← pyFloat b.value
    match a.value with
    | .num x => if x = 0 then .error .zeroDivisionError else .ok (y / x)
    | .str _ => .error .typeError
  else .error .notImplementedError

/-- The value stored by LinearAdjust.adjusted: the product, passed
through int() when the class derives Numeric. -/
def adjustedValue (numeric : Bool) (v t : ℚ) : PyVal :=
  if numeric then .num ((pyInt (v * t) : ℤ) : ℚ) else .num (v * t)

/-- attributes.py LinearAdjust.adjusted: a new attribute of the same
class built from self.value * value.  The constructor runs the class
_set_value, so a Numeric class (such as Price) stores int(product),
truncating toward zero; a non-Numeric class stores the product as is.
Only adjustable classes define adjusted (Attribute.adjusted raises
NotImplementedError). -/
def adjusted (a : Attr) (t : ℚ) : Except PyErr Attr :=
  if a.adjustable then
    match a.value with
    | .num v =>
      .ok { a with value := if a.numeric then .num ((pyInt (v * t) : ℤ) : ℚ)
                            else .num (v * t) }
    | .str _ => .error .typeError
  else .error .notImplementedError

/-- case.py Case: a dict from field name to attribute instance.  Python 2
dicts are unordered; the list order stands in for an iteration order, and
every aggregate computed below is order-independent over exact rationals. -/
structure Case where
  attrs : List (String × Attr)

/-- dict lookup: the attribute stored under a key, if any. -/
def Case.lookup (c : Case) (k : String) : Option Attr :=
  (c.attrs.find? (fun p => p.1 = k)).map (fun p => p.2)

/-- dict key containment, as used by the check attr.name in other. -/
def Case.hasKey (c : Case) (k : String) : Bool :=
  (c.attrs.find? (fun p => p.1 = k)).isSome

/-- dict store (Case.__setitem__ with an attribute instance): replace the
entry under the key, or append a new one. -/
def Case.set (c : Case) (k : String) (a : Attr) : Case :=
  if c.attrs.any (fun p => p.1 = k) then
    ⟨c.attrs.map (fun p => if p.1 = k then (k, a) else p)⟩
  else ⟨c.attrs ++ [(k, a)]⟩

/-- case.py Case.similarity accumulation loop.  For each matching
attribute of self the source evaluates other[attr.name] inside a
try/except AttributeError block: a missing key raises KeyError, which
except AttributeError does not catch, so it propagates (the comment in
the source documents an intended skip that never happens).  An
AttributeError from the attribute similarity itself would be skipped;
no error of the modelled fragment is an AttributeError. -/
def simLoop (other : Case) :
    List (String × Attr) → ℚ → ℚ → Except PyErr (ℚ × ℚ)
  | [], ts, tw => .ok (ts, tw)
  | (_, attr) :: rest, ts, tw =>
    if attr.matching then
      match other.lookup attr.name with
      | none => .error .keyError
      | some o =>
        match attrSimilarity attr o with
        | .error .attributeError => simLoop other rest ts tw
        | .error e => .error e
        | .ok s => simLoop other rest (ts + s) (tw + attr.weight)
    else simLoop other rest ts tw

/-- case.py Case.similarity: the similarity sum over the matching
attributes of self, normalised by the weight sum; 0.0 when the weight
sum is zero. -/
def caseSimilarity (self other : Case) : Except PyErr ℚ := do
  let (ts, tw) ← simLoop other self.attrs 0 0
  if tw = 0 then .ok 0 else .ok (ts / tw)

/-- case.py Case.adapt first pass: the product of adapt_distance over the
attributes of self that are adaptable and whose name is a key of other. -/
def adaptProduct (other : Case) :
    List (String × Attr) → ℚ → Except PyErr ℚ
  | [], acc => .ok acc
  | (_, attr) :: rest, acc =>
    if attr.adaptable then
      match other.lookup attr.name with
      | some o => do
        let d ← adaptDistance attr o
        adaptProduct other rest (acc * d)
      | none => adaptProduct other rest acc
    else adaptProduct other rest acc

/-- case.py Case.adapt second pass: copy every attribute of self into a
new case; an adaptable attribute present in other takes the attribute of
other, an adjustable one is adjusted by the combined ratio, anything else
is copied unchanged. -/
def adaptBuild (other : Case) (ta : ℚ) :
    List (String × Attr) → Case → Except PyErr Case
  | [], acc => .ok acc
  | (_, attr) :: rest, acc =>
    match other.lookup attr.name with
    | some o =>
      if attr.adaptable then adaptBuild other ta rest (acc.set attr.name o)
      else if attr.adjustable then do
        let adj ← adjusted attr ta
        adaptBuild other ta rest (acc.set attr.name adj)
      else adaptBuild other ta rest (acc.set attr.name attr)
    | none =>
      if attr.adjustable then do
        let adj ← adjusted attr ta
        adaptBuild other ta rest (acc.set attr.name adj)
      else adaptBuild other ta rest (acc.set attr.name attr)

/-- case.py Case.adapt: combine the two passes. -/
def caseAdapt (self other : Case) : Except PyErr Case := do
  let ta ← adaptProduct other self.attrs 1
  adaptBuild other ta self.attrs ⟨[]⟩

/-- matcher.py match sorts the (similarity, case) tuples with
sorted(..., reverse=True), a stable sort under the reversed Python 2
tuple order.  Tuples compare by first difference: equal scores fall
through to comparing the Case dicts, and CPython 2 dict comparison
orders a smaller dict before a larger one; same-size unequal dicts are,
per the language reference, resolved consistently but not otherwise
defined (the implementation reaches an address comparison), and are
modelled here as mutually unordered, one consistent resolution.  This
predicate is the may-stay-in-front-of relation of the descending
stable sort: x may precede y when its score is larger, or on a score tie
when the dict of y is not larger than the dict of x. -/
def pyTupleLe (x y : ℚ × Case) : Bool :=
  if x.1 = y.1 then y.2.attrs.length ≤ x.2.attrs.length
  else y.1 < x.1

/-- matcher.py Matcher.match: similarity of the query to every stored
case (an exception from any of them propagates), the tuples sorted
descending, the first count kept. -/
def matcherMatch (query : Case) (cases : List Case) (count : ℕ) :
    Except PyErr (List (ℚ × Case)) := do
  let sims ← cases.mapM (fun c => caseSimilarity query c)
  .ok (((sims.zip cases).mergeSort pyTupleLe).take count)

/-- matcher.py Matcher.adapt list comprehension
[k for (k, v) in query.items() if v.adaptable and query[k] != best[k]]:
best[k] on a missing key raises KeyError before any comparison happens.
The comparison query[k] != best[k] depends on object identity: Attribute
defines eq without ne, so CPython 2 resolves != through the default
three-way comparison, which for two instances of the same class compares
addresses.  A value-level embedding cannot express identity, so the
comparison is a parameter ne; for the distinct objects that a fresh query
and a stored case hold, the source comparison is constantly true, the
instantiation pyNeDistinct below. -/
def adaptableKeys (ne : Attr → Attr → Bool) (query best : Case) :
    List (String × Attr) → Except PyErr (List String)
  | [] => .ok []
  | (k, v) :: rest =>
    if v.adaptable then
      match best.lookup k with
      | none => .error .keyError
      | some bv => do
        let qv := (query.lookup k).getD v
        let ks ← adaptableKeys ne query best rest
        .ok (if ne qv bv then k :: ks else ks)
    else adaptableKeys ne query best rest

/-- The Python 2 outcome of attribute != attribute for two objects that
are not the same object: Attribute defines __eq__ but no __ne__ and no
__cmp__, so != falls back to the default three-way comparison, which for
two instances of the same class compares addresses — true for any two
distinct objects, whatever their values. -/
def pyNeDistinct : Attr → Attr → Bool := fun _ _ => true

/-- matcher.py Matcher.adapt: AdaptationError on an empty result list;
KeyError from the comprehension propagates; AdaptationError when the
comprehension is empty; then the best case adapted to the query, and
AdaptationError when the adapted case scores worse than the best match
did. -/
def matcherAdapt (ne : Attr → Attr → Bool) (query : Case)
    (result : List (ℚ × Case)) : Except PyErr (String × Case) :=
  match result with
  | [] => .error .adaptationError
  | (sim, best) :: _ => do
    let ks ← adaptableKeys ne query best query.attrs
    if ks.isEmpty then .error .adaptationError
    else do
      let adapted ← caseAdapt best query
      let s ← caseSimilarity query adapted
      if s < sim then .error .adaptationError
      else .ok ("adapted", adapted)

/-- attribute_names.py HolidayType._match_tree: the registered holiday
taxonomy. -/
def holidayTree : PyTree :=
  .node ("Arbitrary") (3/10) [
    .node ("Active") (1/2) [
      .node ("Adventure") 1 [], .node ("Diving") 1 [],
      .node ("Skiing") 1 [], .node ("Surfing") 1 []],
    .node ("City") (1/2) [.node ("Shopping") 1 []],
    .node ("Education") (1/2) [.node ("Language") 1 []],
    .node ("Recreation") (3/5) [.node ("Bathing") 1 [], .node ("Wandering") 1 []]]

/-- A Duration attribute instance (LinearMatch + NumericAdapt, scale 18.0,
default weight 1.0). -/
def durAttr (v : ℚ) : Attr :=
  { name := "Duration", value := .num v, weight := 1, scale := 18,
    matching := true, adaptable := true, adjustable := false,
    numeric := true, simKind := .linear }

/-- A NumberOfPersons attribute instance (LinearMatch + NumericAdapt,
scale 11.0, default weight 1.0). -/
def nopAttr (v : ℚ) : Attr :=
  { name := "NumberOfPersons", value := .num v, weight := 1, scale := 11,
    matching := true, adaptable := true, adjustable := false,
    numeric := true, simKind := .linear }

/-- A Price attribute instance (LessIsPerfect + LinearAdjust, a Numeric
class; weight 5.0 per attribute_names.py, scale 6882.0 per the
attributes.py snapshot).  None of the settled claims depends on the two
constants. -/
def priceAttr (v : ℚ) : Attr :=
  { name := "Price", value := .num v, weight := 5, scale := 6882,
    matching := true, adaptable := false, adjustable := true,
    numeric := true, simKind := .lessIsPerfect }

/-- A JourneyCode attribute instance (Numeric + ExactMatch, weight 100.0
per attribute_names.py). -/
def jcAttr (v : ℚ) : Attr :=
  { name := "JourneyCode", value := .num v, weight := 100, scale := 1,
    matching := true, adaptable := false, adjustable := false,
    numeric := true, simKind := .exact }

/-- A HolidayType attribute instance (TreeMatch over the registered
holiday taxonomy, weight 10.0). -/
def holidayType (s : String) : Attr :=
  { name := "HolidayType", value := .str s, weight := 10, scale := 1,
    matching := true, adaptable := false, adjustable := false,
    numeric := false, simKind := .tree holidayTree }

/-- The numeric content of a value, with 0 for the string case that the
surrounding hypotheses always exclude. -/
def valNum : PyVal → ℚ
  | .num q => q
  | .str _ => 0

/-- p is an initial segment of l. -/
def IsPref {α : Type} (p l : List α) : Prop := ∃ t, p ++ t = l

/-- The combined adaptation ratio exactly as the claim states it: the
product of other.value / self.value over the attributes of the list that
are adaptable and present by name in other.  Stated from the claim side,
to be compared with adaptProduct. -/
def listRatio (other : Case) (l : List (String × Attr)) : ℚ :=
  (((l.map Prod.snd).filter
      (fun a => a.adaptable && (other.lookup a.name).isSome)).map
    (fun a => valNum ((other.lookup a.name).getD a).value / valNum a.value)).prod

/-- The claimed combined adaptation ratio of a whole case. -/
def claimAdaptRatio (self other : Case) : ℚ := listRatio other self.attrs

/-- The adapted attribute as the (amended) claim states it: an adaptable
attribute present in other takes the attribute of other verbatim; an
adjustable one stores value * ratio, truncated through int() when the
class is Numeric; anything else is copied unchanged.  Stated from the
claim side, to be compared with the second pass of Case.adapt. -/
def claimAdaptedAttr (other : Case) (r : ℚ) (a : Attr) : Attr :=
  if a.adaptable = true ∧ (other.lookup a.name).isSome = true then
    (other.lookup a.name).getD a
  else if a.adjustable then
    { a with value := if a.numeric then .num ((pyInt (valNum a.value * r) : ℤ) : ℚ)
                      else .num (valNum a.value * r) }
  else a

/-- A linear-match instance with weight 5, scale 2, value 1. -/
def c5a : Attr :=
  { name := "NumberOfPersons", value := .num 1, weight := 5, scale := 2,
    matching := true, adaptable := true, adjustable := false,
    numeric := true, simKind := .linear }

/-- A linear-match instance with weight 5, scale 2, value 2. -/
def c5b : Attr := { c5a with value := .num 2 }

/-- A less-is-perfect instance with value 2 (weight 5, scale 6882). -/
def c7a : Attr := priceAttr 2

/-- A less-is-perfect instance with value 1 (weight 5, scale 6882). -/
def c7b : Attr := priceAttr 1

/-- The query side of the C1 failing input: one matching attribute. -/
def c1self : Case := ⟨[("Duration", durAttr 7)]⟩

/-- The other side of the C1 failing input: an empty case. -/
def c1other : Case := ⟨[]⟩

/-- The weight sum of the matching attributes of an attribute list
(specification-side notion for the aggregate of Case.similarity). -/
def matchWeightSum (l : List (String × Attr)) : ℚ :=
  ((l.filter (fun p => p.2.matching)).map (fun p => p.2.weight)).sum

/-- A one-attribute case for the C8 witness. -/
def c8w : Case := ⟨[("Duration", durAttr 7)]⟩

/-- The query of the C2 counterexample. -/
def c2query : Case := ⟨[("Duration", durAttr 7)]⟩

/-- First case of the base: one attribute (a smaller dict). -/
def c2caseB : Case := ⟨[("Duration", durAttr 7)]⟩

/-- Second case of the base: two attributes (a larger dict); scores the
same 1.0 as c2caseB against the query, which only holds Duration. -/
def c2caseA : Case := ⟨[("Duration", durAttr 7), ("JourneyCode", jcAttr 1)]⟩

/-- The query of the C10 witness: one adaptable attribute. -/
def c10query : Case := ⟨[("NumberOfPersons", nopAttr 2)]⟩

/-- The best case of the C10 witness: NumberOfPersons absent. -/
def c10best : Case := ⟨[("Duration", durAttr 7)]⟩

/-- The query of the C4 failing input: one adaptable attribute with
value 2. -/
def c4query : Case := ⟨[("NumberOfPersons", nopAttr 2)]⟩

/-- The best case of the C4 failing input: the same NumberOfPersons
value 2, plus an adjustable Price. -/
def c4best : Case :=
  ⟨[("NumberOfPersons", nopAttr 2), ("Price", priceAttr 100)]⟩

/-- The case that best.adapt(query) produces at the C4 failing input:
NumberOfPersons snapped to the value of the query and Price adjusted by
the combined ratio 2/2 = 1 (int(100 * 1) = 100). -/
def c4adaptedCase : Case :=
  ⟨[("NumberOfPersons", nopAttr 2),
    ("Price", { priceAttr 100 with
      value := .num ((pyInt ((100 : ℚ) * (1 * (2 / 2))) : ℤ) : ℚ) })]⟩

/-- The stored case of the C3 witness and counterexample: an adjustable
numeric Price 101 and an adaptable NumberOfPersons 2. -/
def c3self : Case :=
  ⟨[("Price", priceAttr 101), ("NumberOfPersons", nopAttr 2)]⟩

/-- The query of the C3 witness and counterexample: NumberOfPersons 3,
so the combined ratio is 3/2. -/
def c3other : Case := ⟨[("NumberOfPersons", nopAttr 3)]⟩

theorem exc_bind_ok {ε α β : Type} (a : α) (f : α → Except ε β) :
    (Except.ok a : Except ε α) >>= f = f a := rfl

theorem exc_bind_error {ε α β : Type} (e : ε) (f : α → Except ε β) :
    (Except.error e : Except ε α) >>= f = .error e := rfl

theorem exc_pure {ε α : Type} (a : α) :
    (pure a : Except ε α) = .ok a := rfl

theorem linearBody_eq (a b : Attr) (x y : ℚ) (ha : a.value = .num x)
    (hb : b.value = .num y) (hs : a.scale ≠ 0) :
    linearBody a b = .ok (1 - |x - y| / a.scale) := by
  simp only [linearBody, ha, hb, asNum, hs, exc_bind_ok]
  rfl

/-- C5 (amended): for every pair of same-named linear-match attributes
with numeric values and a nonzero scale constant, similarity is
1 - |self.value - other.value| / scale; the code applies no weight
factor, so the claimed formula holds exactly when weight = 1. -/
theorem linear_match_similarity (a b : Attr) (x y : ℚ)
    (hk : a.simKind = .linear) (ha : a.value = .num x)
    (hb : b.value = .num y) (hs : a.scale ≠ 0) :
    attrSimilarity a b = .ok (1 - |x - y| / a.scale) := by
  obtain ⟨n, v, w, sc, mg, ad, aj, nu, sk⟩ := a
  simp only at hk
  subst hk
  simpa [attrSimilarity] using linearBody_eq _ b x y ha hb hs

/-- C5, counterexample: on the pair c5a, c5b the code returns
1 - |1 - 2| / 2 = 1/2, while the claimed formula
weight * (1 - |1 - 2| / 2) gives 5/2. -/
theorem linear_match_weight_counterexample :
    attrSimilarity c5a c5b = .ok (1 / 2) ∧
    (1 / 2 : ℚ) ≠ c5a.weight * (1 - |(1:ℚ) - 2| / 2) := by
  constructor
  · norm_num [attrSimilarity, c5a, c5b, linearBody, asNum, exc_bind_ok]
  · norm_num [c5a]

/-- C5, witness: the amended formula evaluated at c5a, c5b. -/
theorem linear_match_similarity_witness :
    attrSimilarity c5a c5b = .ok (1 - |(1:ℚ) - 2| / c5a.scale) :=
  linear_match_similarity c5a c5b 1 2 rfl rfl rfl (by norm_num [c5a])

/-- C7: for every pair of same-named less-is-perfect attributes with
numeric values and nonzero scale, similarity is the weight whenever
other.value < self.value and the linear-match formula otherwise; and the
metric is asymmetric, witnessed by the concrete pair c7a, c7b. -/
theorem less_is_perfect_similarity :
    (∀ (a b : Attr) (x y : ℚ), a.simKind = .lessIsPerfect →
      a.value = .num x → b.value = .num y → a.scale ≠ 0 →
      (y < x → attrSimilarity a b = .ok a.weight) ∧
      (¬ y < x → attrSimilarity a b = .ok (1 - |x - y| / a.scale))) ∧
    attrSimilarity c7a c7b ≠ attrSimilarity c7b c7a := by
  constructor
  · intro a b x y hk ha hb hs
    obtain ⟨n, v, w, sc, mg, ad, aj, nu, sk⟩ := a
    simp only at hk
    subst hk
    simp only at ha
    subst ha
    constructor
    · intro hlt
      simp [attrSimilarity, pyValLt, hb, hlt]
    · intro hge
      simpa [attrSimilarity, pyValLt, hb, hge]
        using linearBody_eq _ b x y rfl hb hs
  · intro h
    simp only [attrSimilarity, c7a, c7b, priceAttr, pyValLt, linearBody,
      asNum, exc_bind_ok] at h
    norm_num at h

/-- C7, witness: the perfect branch at the concrete pair. -/
theorem less_is_perfect_similarity_witness :
    attrSimilarity c7a c7b = .ok c7a.weight :=
  (less_is_perfect_similarity.1 c7a c7b 2 1 rfl rfl rfl
    (by norm_num [c7a, priceAttr])).1 (by norm_num)

/-- C1: at the failing input, Case.similarity raises KeyError instead of
silently skipping the attribute that is absent from the other case: the
source wraps the dict access in except AttributeError, but a missing key
raises KeyError, which that clause does not catch. -/
theorem similarity_missing_attribute_keyerror :
    caseSimilarity c1self c1other = .error .keyError := rfl

theorem find_self (l : List (String × Attr))
    (hwf : ∀ p ∈ l, p.1 = p.2.name)
    (hnd : (l.map (fun p => p.1)).Nodup) :
    ∀ p ∈ l, (l.find? (fun q => q.1 = p.2.name)).map (fun q => q.2) = some p.2 := by
  induction l with
  | nil => intro p hp; cases hp
  | cons a l ih =>
    intro p hp
    rw [List.mem_cons] at hp
    rcases hp with hp | hp
    · subst hp
      have h1 : p.1 = p.2.name := hwf p (List.mem_cons_self _ _)
      rw [List.find?_cons_of_pos _ (by simpa using h1)]
      rfl
    · have h1 : p.1 = p.2.name := hwf p (List.mem_cons_of_mem _ hp)
      have hk : a.1 ≠ p.2.name := by
        intro he
        have : a.1 ∈ l.map (fun p => p.1) := by
          rw [he, ← h1]
          exact List.mem_map_of_mem _ hp
        exact (List.nodup_cons.mp hnd).1 this
      rw [List.find?_cons_of_neg _ (by simpa using hk)]
      exact ih (fun q hq => hwf q (List.mem_cons_of_mem _ hq))
        (List.nodup_cons.mp hnd).2 p hp

theorem simLoop_self (c : Case) :
    ∀ (l : List (String × Attr)),
      (∀ p ∈ l, c.lookup p.2.name = some p.2) →
      (∀ p ∈ l, p.2.matching = true →
        attrSimilarity p.2 p.2 = .ok p.2.weight) →
      ∀ s w : ℚ,
        simLoop c l s w = .ok (s + matchWeightSum l, w + matchWeightSum l) := by
  intro l
  induction l with
  | nil => intro _ _ s w; simp [simLoop, matchWeightSum]
  | cons a l ih =>
    intro hsub hmax s w
    obtain ⟨k, attr⟩ := a
    by_cases hm : attr.matching = true
    · have hlk : c.lookup attr.name = some attr :=
        hsub ⟨k, attr⟩ (List.mem_cons_self _ _)
      have hsim : attrSimilarity attr attr = .ok attr.weight :=
        hmax ⟨k, attr⟩ (List.mem_cons_self _ _) hm
      simp only [simLoop, hm, if_true, hlk, hsim]
      rw [ih (fun q hq => hsub q (List.mem_cons_of_mem _ hq))
          (fun q hq => hmax q (List.mem_cons_of_mem _ hq)) _ _]
      have hws : matchWeightSum ((k, attr) :: l) =
          attr.weight + matchWeightSum l := by
        simp [matchWeightSum, List.filter_cons, hm]
      rw [hws]
      ring_nf
    · have hm2 : attr.matching = false := by
        cases h : attr.matching
        · rfl
        · exact absurd h hm
      simp only [simLoop, hm2, Bool.false_eq_true, if_false]
      rw [ih (fun q hq => hsub q (List.mem_cons_of_mem _ hq))
          (fun q hq => hmax q (List.mem_cons_of_mem _ hq)) s w]
      have hws : matchWeightSum ((k, attr) :: l) = matchWeightSum l := by
        simp [matchWeightSum, List.filter_cons, hm2]
      rw [hws]

/-- C8 (amended): a case whose matching attributes each score their own
weight against themselves, and whose matching attributes carry a nonzero
total weight, is perfectly similar to itself; without a matching
attribute pair the similarity is 0.0, not 1.0 (see the counterexample). -/
theorem self_similarity_one (c : Case)
    (hwf : ∀ p ∈ c.attrs, p.1 = p.2.name)
    (hnd : (c.attrs.map (fun p => p.1)).Nodup)
    (hmax : ∀ p ∈ c.attrs, p.2.matching = true →
      attrSimilarity p.2 p.2 = .ok p.2.weight)
    (hw : matchWeightSum c.attrs ≠ 0) :
    caseSimilarity c c = .ok 1 := by
  have hsub : ∀ p ∈ c.attrs, c.lookup p.2.name = some p.2 := by
    intro p hp
    exact find_self c.attrs hwf hnd p hp
  unfold caseSimilarity
  rw [simLoop_self c c.attrs hsub hmax 0 0]
  simp only [exc_bind_ok, zero_add]
  rw [if_neg hw]
  rw [div_self hw]

/-- C8, witness: the singleton Duration case is perfectly self-similar. -/
theorem self_similarity_one_witness : caseSimilarity c8w c8w = .ok 1 :=
  self_similarity_one c8w
    (by intro p hp; simp [c8w] at hp; subst hp; rfl)
    (by simp [c8w])
    (by
      intro p hp _
      simp [c8w] at hp
      subst hp
      norm_num [attrSimilarity, durAttr, linearBody, asNum, exc_bind_ok])
    (by norm_num [matchWeightSum, c8w, durAttr])

/-- C8, counterexample: the empty case satisfies the claim hypothesis
vacuously (every matching attribute scores maximally), yet its
self-similarity is 0.0, not 1.0. -/
theorem self_similarity_empty_counterexample :
    caseSimilarity (⟨[]⟩ : Case) ⟨[]⟩ = .ok 0 ∧
    (Except.ok (0 : ℚ) : Except PyErr ℚ) ≠ .ok 1 := by
  refine ⟨rfl, ?_⟩
  intro h
  simp at h

theorem lcp2_nil_left {α : Type} [DecidableEq α] (l : List α) :
    lcp2 [] l = [] := by
  cases l <;> rfl

theorem lcp2_nil_right {α : Type} [DecidableEq α] (l : List α) :
    lcp2 l [] = [] := by
  cases l <;> rfl

theorem lcp2_cons_eq {α : Type} [DecidableEq α] (a : α) (x y : List α) :
    lcp2 (a :: x) (a :: y) = a :: lcp2 x y := by
  simp [lcp2]

theorem foldl_lcp2_nil {α : Type} [DecidableEq α] (ps : List (List α)) :
    ps.foldl lcp2 [] = [] := by
  induction ps with
  | nil => rfl
  | cons p ps ih => rw [List.foldl_cons, lcp2_nil_left]; exact ih

theorem isPref_trans {α : Type} {a b c : List α}
    (h1 : IsPref a b) (h2 : IsPref b c) : IsPref a c := by
  obtain ⟨t1, h1⟩ := h1
  obtain ⟨t2, h2⟩ := h2
  exact ⟨t1 ++ t2, by rw [← List.append_assoc, h1, h2]⟩

theorem isPref_length {α : Type} {a b : List α} (h : IsPref a b) :
    a.length ≤ b.length := by
  obtain ⟨t, h⟩ := h
  rw [← h, List.length_append]
  omega

theorem isPref_head {α : Type} {c v : α} {r x : List α}
    (h : IsPref (c :: r) (v :: x)) : c = v := by
  obtain ⟨t, h⟩ := h
  rw [List.cons_append] at h
  exact (List.cons.injEq _ _ _ _ ▸ h).1

theorem lcp2_pref_left {α : Type} [DecidableEq α] :
    ∀ x y : List α, IsPref (lcp2 x y) x := by
  intro x
  induction x with
  | nil => intro y; rw [lcp2_nil_left]; exact ⟨[], rfl⟩
  | cons a x ih =>
    intro y
    cases y with
    | nil => rw [lcp2_nil_right]; exact ⟨a :: x, rfl⟩
    | cons b y =>
      by_cases hab : a = b
      · subst hab
        rw [lcp2_cons_eq]
        obtain ⟨t, ht⟩ := ih y
        exact ⟨t, by rw [List.cons_append, ht]⟩
      · rw [show lcp2 (a :: x) (b :: y) = [] from by simp [lcp2, hab]]
        exact ⟨a :: x, rfl⟩

theorem lcp2_pref_right {α : Type} [DecidableEq α] :
    ∀ x y : List α, IsPref (lcp2 x y) y := by
  intro x
  induction x with
  | nil => intro y; rw [lcp2_nil_left]; exact ⟨y, rfl⟩
  | cons a x ih =>
    intro y
    cases y with
    | nil => rw [lcp2_nil_right]; exact ⟨[], rfl⟩
    | cons b y =>
      by_cases hab : a = b
      · subst hab
        rw [lcp2_cons_eq]
        obtain ⟨t, ht⟩ := ih y
        exact ⟨t, by rw [List.cons_append, ht]⟩
      · rw [show lcp2 (a :: x) (b :: y) = [] from by simp [lcp2, hab]]
        exact ⟨b :: y, rfl⟩

theorem foldl_lcp2_pref {α : Type} [DecidableEq α] :
    ∀ (ps : List (List α)) (a : List α),
      IsPref (ps.foldl lcp2 a) a ∧ ∀ l ∈ ps, IsPref (ps.foldl lcp2 a) l := by
  intro ps
  induction ps with
  | nil => intro a; exact ⟨⟨[], List.append_nil _⟩, by intro l hl; cases hl⟩
  | cons p ps ih =>
    intro a
    rw [List.foldl_cons]
    refine ⟨isPref_trans (ih (lcp2 a p)).1 (lcp2_pref_left a p), ?_⟩
    intro l hl
    rw [List.mem_cons] at hl
    rcases hl with hl | hl
    · subst hl
      exact isPref_trans (ih (lcp2 a l)).1 (lcp2_pref_right a l)
    · exact (ih (lcp2 a p)).2 l hl

theorem lcp2_take {α : Type} [DecidableEq α] :
    ∀ (m : ℕ) (x y : List α),
      lcp2 (x.take m) (y.take m) = (lcp2 x y).take m := by
  intro m
  induction m with
  | zero => intro x y; simp [lcp2_nil_left]
  | succ m ih =>
    intro x y
    cases x with
    | nil => simp [lcp2_nil_left]
    | cons a x =>
      cases y with
      | nil => simp [lcp2_nil_right]
      | cons b y =>
        by_cases hab : a = b
        · subst hab
          simp only [List.take_cons, lcp2_cons_eq, List.take_succ_cons]
          rw [ih]
        · simp [lcp2, hab]

theorem foldl_lcp2_take {α : Type} [DecidableEq α] :
    ∀ (ps : List (List α)) (a : List α) (m : ℕ),
      (ps.map (List.take m)).foldl lcp2 (a.take m) =
        (ps.foldl lcp2 a).take m := by
  intro ps
  induction ps with
  | nil => intro a m; rfl
  | cons p ps ih =>
    intro a m
    rw [List.map_cons, List.foldl_cons, List.foldl_cons, lcp2_take m a p]
    exact ih (lcp2 a p) m

theorem foldl_lcp2_map_cons {α β : Type} [DecidableEq α]
    (g : β → List α) (v : α) :
    ∀ (ls : List β) (a : List α),
      (ls.map (fun l => v :: g l)).foldl lcp2 (v :: a) =
        v :: (ls.map g).foldl lcp2 a := by
  intro ls
  induction ls with
  | nil => intro a; rfl
  | cons c ls ih =>
    intro a
    rw [List.map_cons, List.foldl_cons, lcp2_cons_eq, List.map_cons,
      List.foldl_cons]
    exact ih (lcp2 a (g c))

theorem foldl_lcp2_head {α : Type} [DecidableEq α] {e : α} :
    ∀ (ls : List (List α)) (a : List α), a.head? = some e →
      (∀ l ∈ ls, l.head? = some e) → (ls.foldl lcp2 a).head? = some e := by
  intro ls
  induction ls with
  | nil => intro a ha _; exact ha
  | cons p ps ih =>
    intro a ha hl
    rw [List.foldl_cons]
    have hp : p.head? = some e := hl p (List.mem_cons_self _ _)
    cases a with
    | nil => simp at ha
    | cons a0 a' =>
      cases p with
      | nil => simp at hp
      | cons p0 p' =>
        simp only [List.head?_cons, Option.some.injEq] at ha hp
        subst ha
        subst hp
        rw [lcp2_cons_eq]
        exact ih _ (by simp) (fun l h => hl l (List.mem_cons_of_mem _ h))

theorem foldl_min_le {α : Type} :
    ∀ (ps : List (List α)) (n : ℕ),
      ps.foldl (fun a q => Nat.min a q.length) n ≤ n ∧
      ∀ q ∈ ps, ps.foldl (fun a q => Nat.min a q.length) n ≤ q.length := by
  intro ps
  induction ps with
  | nil => intro n; exact ⟨le_refl n, by intro q hq; cases hq⟩
  | cons p ps ih =>
    intro n
    rw [List.foldl_cons]
    refine ⟨le_trans (ih _).1 (Nat.min_le_left _ _), ?_⟩
    intro q hq
    rw [List.mem_cons] at hq
    rcases hq with hq | hq
    · subst hq
      exact le_trans (ih _).1 (Nat.min_le_right _ _)
    · exact (ih _).2 q hq

theorem le_foldl_min {α : Type} :
    ∀ (ps : List (List α)) (n c : ℕ), c ≤ n → (∀ q ∈ ps, c ≤ q.length) →
      c ≤ ps.foldl (fun a q => Nat.min a q.length) n := by
  intro ps
  induction ps with
  | nil => intro n c h _; exact h
  | cons p ps ih =>
    intro n c h hq
    rw [List.foldl_cons]
    exact ih _ _ (Nat.le_min.mpr ⟨h, hq p (List.mem_cons_self _ _)⟩)
      (fun q hqq => hq q (List.mem_cons_of_mem _ hqq))

theorem mapM_opt_length {α β : Type} (f : α → Option β) :
    ∀ (l : List α) (res : List β), l.mapM f = some res →
      res.length = l.length := by
  intro l
  induction l with
  | nil =>
    intro res h
    have h2 : some ([] : List β) = some res := h
    rw [← Option.some.inj h2]
    rfl
  | cons a l ih =>
    intro res h
    rw [List.mapM_cons] at h
    cases hfa : f a with
    | none => rw [hfa] at h; simp at h
    | some b =>
      rw [hfa] at h
      cases hml : l.mapM f with
      | none => rw [hml] at h; simp at h
      | some bs =>
        rw [hml] at h
        simp at h
        subst h
        simp [ih bs hml]

theorem mapM_opt_none {α β : Type} (f : α → Option β) :
    ∀ (l : List α), (∃ x ∈ l, f x = none) → l.mapM f = none := by
  intro l
  induction l with
  | nil => intro h; obtain ⟨x, hx, _⟩ := h; cases hx
  | cons a l ih =>
    intro h
    rw [List.mapM_cons]
    cases hfa : f a with
    | none => rfl
    | some b =>
      obtain ⟨x, hx, hfx⟩ := h
      rw [List.mem_cons] at hx
      rcases hx with hx | hx
      · subst hx; rw [hfa] at hfx; cases hfx
      · rw [ih ⟨x, hx, hfx⟩]; rfl

theorem mapM_opt_mem {α β : Type} (f : α → Option β) :
    ∀ (l : List α) (res : List β), l.mapM f = some res →
      ∀ b ∈ res, ∃ x ∈ l, f x = some b := by
  intro l
  induction l with
  | nil =>
    intro res h b hb
    have h2 : some ([] : List β) = some res := h
    rw [← Option.some.inj h2] at hb
    cases hb
  | cons a l ih =>
    intro res h b hb
    rw [List.mapM_cons] at h
    cases hfa : f a with
    | none => rw [hfa] at h; simp at h
    | some c =>
      rw [hfa] at h
      cases hml : l.mapM f with
      | none => rw [hml] at h; simp at h
      | some bs =>
        rw [hml] at h
        simp at h
        subst h
        rw [List.mem_cons] at hb
        rcases hb with hb | hb
        · subst hb; exact ⟨a, List.mem_cons_self _ _, hfa⟩
        · obtain ⟨x, hx, hfx⟩ := ih bs hml b hb
          exact ⟨x, List.mem_cons_of_mem _ hx, hfx⟩

theorem findPath_head (t : PyTree) (nm : String) (p : List PathEntry)
    (h : findPath t nm = some p) :
    ∃ r, p = (t.name, t.value) :: r := by
  obtain ⟨n, v, cs⟩ := t
  rw [findPath] at h
  by_cases hn : n = nm
  · rw [if_pos hn] at h
    exact ⟨[], (Option.some.inj h).symm⟩
  · rw [if_neg hn] at h
    by_cases hcs : cs.isEmpty
    · rw [if_pos hcs] at h; cases h
    · rw [if_neg hcs] at h
      cases hfl : findPathList cs nm with
      | none => rw [hfl] at h; cases h
      | some q =>
        rw [hfl] at h
        simp only [Option.map_some', Option.some.injEq] at h
        exact ⟨q, by rw [← h]; rfl⟩

theorem drop_take_getD {α : Type} (l : List α) (i fuel : ℕ) (d : α)
    (h : i < l.length) :
    (l.drop i).take (fuel + 1) = l.getD i d :: (l.drop (i + 1)).take fuel := by
  rw [List.drop_eq_getElem_cons h, List.take_succ_cons,
    List.getD_eq_getElem?_getD, List.getElem?_eq_getElem h]
  rfl

theorem commonFrom_eq :
    ∀ (fuel i : ℕ) (p : List PathEntry) (ps : List (List PathEntry)),
      (∀ q ∈ p :: ps, i + fuel ≤ q.length) →
      commonFrom (p :: ps) i fuel =
        lcpAll ((p :: ps).map (fun l => (l.drop i).take fuel)) := by
  intro fuel
  induction fuel with
  | zero =>
    intro i p ps _
    rw [show commonFrom (p :: ps) i 0 = [] from rfl]
    simp only [List.take_zero]
    rw [List.map_cons, lcpAll, foldl_lcp2_nil]
  | succ fuel ih =>
    intro i p ps hlen
    have hip : i < p.length := by
      have := hlen p (List.mem_cons_self _ _); omega
    have step : commonFrom (p :: ps) i (fuel + 1) =
        (if (ps.map (fun q => q.getD i ("", 0))).all
            (fun s => s = p.getD i ("", 0)) then
          p.getD i ("", 0) :: commonFrom (p :: ps) (i + 1) fuel
        else []) := rfl
    rw [step]
    by_cases hall : ∀ q ∈ ps, q.getD i ("", 0) = p.getD i ("", 0)
    · have hcond : (ps.map (fun q => q.getD i ("", 0))).all
          (fun s => s = p.getD i ("", 0)) = true := by
        rw [List.all_eq_true]
        intro x hx
        rw [List.mem_map] at hx
        obtain ⟨q, hq, hqx⟩ := hx
        rw [decide_eq_true_eq, ← hqx]
        exact hall q hq
      rw [if_pos hcond]
      rw [ih (i + 1) p ps (by intro q hq; have := hlen q hq; omega)]
      have hmap : (p :: ps).map (fun l => (l.drop i).take (fuel + 1)) =
          (p :: ps).map
            (fun l => p.getD i ("", 0) :: ((l.drop (i + 1)).take fuel)) := by
        apply List.map_congr_left
        intro l hl
        have hil : i < l.length := by have := hlen l hl; omega
        rw [drop_take_getD l i fuel ("", 0) hil]
        rw [List.mem_cons] at hl
        rcases hl with hl | hl
        · subst hl; rfl
        · rw [hall l hl]
      rw [hmap, List.map_cons, List.map_cons]
      rw [show lcpAll ((p.getD i ("", 0) :: ((p.drop (i + 1)).take fuel)) ::
          ps.map (fun l => p.getD i ("", 0) :: ((l.drop (i + 1)).take fuel))) =
          (ps.map (fun l => p.getD i ("", 0) :: ((l.drop (i + 1)).take fuel))).foldl
            lcp2 (p.getD i ("", 0) :: ((p.drop (i + 1)).take fuel)) from rfl]
      rw [foldl_lcp2_map_cons (fun l => (l.drop (i + 1)).take fuel)
        (p.getD i ("", 0)) ps ((p.drop (i + 1)).take fuel)]
      rfl
    · push_neg at hall
      obtain ⟨q, hq, hne⟩ := hall
      have hcond : (ps.map (fun q => q.getD i ("", 0))).all
          (fun s => s = p.getD i ("", 0)) = false := by
        rw [List.all_eq_false]
        refine ⟨q.getD i ("", 0), List.mem_map_of_mem _ hq, by simpa using hne⟩
      rw [if_neg (by rw [hcond]; exact Bool.false_ne_true)]
      have hiq : i < q.length := by have := hlen q (List.mem_cons_of_mem _ hq); omega
      set f : List PathEntry → List PathEntry :=
        fun l => (l.drop i).take (fuel + 1) with hf
      have hprefs := foldl_lcp2_pref (ps.map f) (f p)
      cases hL : (ps.map f).foldl lcp2 (f p) with
      | nil =>
        rw [List.map_cons]
        rw [show lcpAll (f p :: ps.map f) = (ps.map f).foldl lcp2 (f p) from rfl]
        rw [hL]
      | cons c r =>
        exfalso
        have hpv : f p = p.getD i ("", 0) :: ((p.drop (i + 1)).take fuel) := by
          rw [hf]; exact drop_take_getD p i fuel ("", 0) hip
        have hqv : f q = q.getD i ("", 0) :: ((q.drop (i + 1)).take fuel) := by
          rw [hf]; exact drop_take_getD q i fuel ("", 0) hiq
        have h1 : c = p.getD i ("", 0) := by
          have := hprefs.1
          rw [hL, hpv] at this
          exact isPref_head this
        have h2 : c = q.getD i ("", 0) := by
          have := hprefs.2 (f q) (List.mem_map_of_mem _ hq)
          rw [hL, hqv] at this
          exact isPref_head this
        exact hne (by rw [← h2, ← h1])

theorem findCommonPath_eq_lcp (t : PyTree) (names : List String)
    (paths : List (List PathEntry)) (hne : names ≠ [])
    (hm : names.mapM (findPath t) = some paths) :
    findCommonPath t names = .ok (some (lcpAll paths)) := by
  cases paths with
  | nil =>
    exfalso
    have hl := mapM_opt_length (findPath t) names [] hm
    cases names with
    | nil => exact hne rfl
    | cons a l => simp at hl
  | cons p ps =>
    unfold findCommonPath
    rw [hm]
    have hmin := foldl_min_le ps p.length
    have hlen : ∀ q ∈ p :: ps,
        0 + ps.foldl (fun a q => Nat.min a q.length) p.length ≤ q.length := by
      intro q hq
      rw [List.mem_cons] at hq
      rcases hq with hq | hq
      · subst hq
        have h1 := hmin.1
        omega
      · have h1 := hmin.2 q hq
        omega
    show Except.ok (some (commonFrom (p :: ps) 0
        (ps.foldl (fun a q => Nat.min a q.length) p.length))) =
      Except.ok (some (lcpAll (p :: ps)))
    have hgoal : commonFrom (p :: ps) 0
        (ps.foldl (fun a q => Nat.min a q.length) p.length) =
        lcpAll (p :: ps) := by
      rw [commonFrom_eq _ 0 p ps hlen]
      have hdz : (p :: ps).map
          (fun l => (l.drop 0).take
            (ps.foldl (fun a q => Nat.min a q.length) p.length)) =
          (p :: ps).map
            (List.take (ps.foldl (fun a q => Nat.min a q.length) p.length)) := by
        apply List.map_congr_left
        intro l _
        rw [List.drop_zero]
      rw [hdz, List.map_cons]
      show (ps.map (List.take
          (ps.foldl (fun a q => Nat.min a q.length) p.length))).foldl
            lcp2 (p.take (ps.foldl (fun a q => Nat.min a q.length) p.length)) =
        lcpAll (p :: ps)
      rw [foldl_lcp2_take ps p _]
      have hpref := foldl_lcp2_pref ps p
      have hlen2 : (ps.foldl lcp2 p).length ≤
          ps.foldl (fun a q => Nat.min a q.length) p.length := by
        apply le_foldl_min
        · exact isPref_length hpref.1
        · intro q hq
          exact isPref_length (hpref.2 q hq)
      rw [List.take_of_length_le hlen2]
      rfl
    rw [hgoal]

theorem lcpAll_findPaths_head (t : PyTree) (names : List String)
    (paths : List (List PathEntry)) (hne : names ≠ [])
    (hm : names.mapM (findPath t) = some paths) :
    (lcpAll paths).head? = some (t.name, t.value) := by
  cases paths with
  | nil =>
    exfalso
    have hl := mapM_opt_length (findPath t) names [] hm
    cases names with
    | nil => exact hne rfl
    | cons a l => simp at hl
  | cons p ps =>
    have hmem : ∀ q ∈ p :: ps, q.head? = some (t.name, t.value) := by
      intro q hq
      obtain ⟨n, hn, hfq⟩ := mapM_opt_mem (findPath t) names (p :: ps) hm q hq
      obtain ⟨r, hr⟩ := findPath_head t n q hfq
      rw [hr]
      rfl
    rw [show lcpAll (p :: ps) = ps.foldl lcp2 p from rfl]
    exact foldl_lcp2_head ps p (hmem p (List.mem_cons_self _ _))
      (fun l hl => hmem l (List.mem_cons_of_mem _ hl))

theorem findCommon_correct_aux (t : PyTree) (names : List String)
    (hne : names ≠ []) :
    (∀ paths, names.mapM (findPath t) = some paths →
      findCommonPath t names = .ok (some (lcpAll paths)) ∧
      lcpAll paths ≠ [] ∧
      findCommonValue t names =
        .ok (some ((((lcpAll paths).getLast?).map Prod.snd).getD 0))) ∧
    ((∃ n ∈ names, findPath t n = none) →
      findCommonPath t names = .ok none ∧ findCommonValue t names = .ok none) := by
  constructor
  · intro paths hm
    have h1 := findCommonPath_eq_lcp t names paths hne hm
    have hhead := lcpAll_findPaths_head t names paths hne hm
    have hnil : lcpAll paths ≠ [] := by
      intro h
      rw [h] at hhead
      cases hhead
    refine ⟨h1, hnil, ?_⟩
    obtain ⟨z, hz⟩ : ∃ z, (lcpAll paths).getLast? = some z := by
      cases hL : (lcpAll paths).getLast? with
      | none => exact absurd (List.getLast?_eq_none_iff.mp hL) hnil
      | some z => exact ⟨z, rfl⟩
    unfold findCommonValue
    rw [h1, exc_bind_ok]
    show (match (lcpAll paths).getLast? with
        | none => (Except.error PyErr.indexError : Except PyErr (Option ℚ))
        | some last => .ok (some last.2)) =
      .ok (some ((((lcpAll paths).getLast?).map Prod.snd).getD 0))
    rw [hz]
    rfl
  · intro habs
    have hm := mapM_opt_none (findPath t) names habs
    have h1 : findCommonPath t names = .ok none := by
      unfold findCommonPath
      rw [hm]
    refine ⟨h1, ?_⟩
    unfold findCommonValue
    rw [h1, exc_bind_ok]

/-- C9: for a nonempty list of names, when every name is present in the
tree, Tree.find_common_path returns the longest common prefix of the
root-to-node paths of all the names and Tree.find_common_value the
relatedness value stored at the last node of that common path; when any
name is absent, both return the not-found result (None) for the whole
query. -/
theorem find_common_path_correct (t : PyTree) (names : List String)
    (hne : names ≠ []) :
    (∀ paths, names.mapM (findPath t) = some paths →
      findCommonPath t names = .ok (some (lcpAll paths)) ∧
      lcpAll paths ≠ [] ∧
      findCommonValue t names =
        .ok (some ((((lcpAll paths).getLast?).map Prod.snd).getD 0))) ∧
    ((∃ n ∈ names, findPath t n = none) →
      findCommonPath t names = .ok none ∧ findCommonValue t names = .ok none) :=
  findCommon_correct_aux t names hne

/-- C9, witness: Bathing and Wandering are both leaves under Recreation,
whose configured relatedness is 0.6 = 3/5. -/
theorem find_common_path_correct_witness :
    findCommonValue holidayTree ["Bathing", "Wandering"] = .ok (some (3/5)) := by
  have hf1 : findPath holidayTree ("Bathing") =
      some [("Arbitrary", 3/10), ("Recreation", 3/5), ("Bathing", 1)] := by
    simp [holidayTree, findPath, findPathList]
  have hf2 : findPath holidayTree ("Wandering") =
      some [("Arbitrary", 3/10), ("Recreation", 3/5), ("Wandering", 1)] := by
    simp [holidayTree, findPath, findPathList]
  have hm : (["Bathing", "Wandering"] : List String).mapM (findPath holidayTree) =
      some [[("Arbitrary", 3/10), ("Recreation", 3/5), ("Bathing", 1)],
            [("Arbitrary", 3/10), ("Recreation", 3/5), ("Wandering", 1)]] := by
    rw [List.mapM_cons, hf1, List.mapM_cons, hf2, List.mapM_nil]
    rfl
  have h := (find_common_path_correct holidayTree ["Bathing", "Wandering"]
    (by simp)).1 _ hm
  rw [h.2.2]
  simp [lcpAll, lcp2]

/-- C6: for same-named tree-match attributes over tree t, with both
values present in t, similarity is exactly 1.0 when the values are
equal — the weight of the attribute is arbitrary here and is not
applied — and otherwise the relatedness value at the nearest common
ancestor, i.e. at the last node of the longest common prefix of the two
root-to-node paths. -/
theorem tree_match_similarity (a b : Attr) (t : PyTree) (sa sb : String)
    (pa pb : List PathEntry)
    (hk : a.simKind = .tree t) (ha : a.value = .str sa)
    (hb : b.value = .str sb)
    (hpa : findPath t sa = some pa) (hpb : findPath t sb = some pb) :
    (a.value = b.value → attrSimilarity a b = .ok 1) ∧
    (a.value ≠ b.value → lcp2 pa pb ≠ [] ∧
      attrSimilarity a b = .ok ((((lcp2 pa pb).getLast?).map Prod.snd).getD 0)) := by
  obtain ⟨n, v, w, sc, mg, ad, aj, nu, sk⟩ := a
  simp only at hk ha
  subst hk
  subst ha
  constructor
  · intro he
    simp only at he
    simp [attrSimilarity, he]
  · intro hne
    simp only at hne
    rw [hb] at hne
    have hmapm : ([sa, sb] : List String).mapM (findPath t) = some [pa, pb] := by
      rw [List.mapM_cons, hpa, List.mapM_cons, hpb, List.mapM_nil]
      rfl
    have h := (findCommon_correct_aux t [sa, sb] (by simp)).1 [pa, pb] hmapm
    have hl2 : lcpAll [pa, pb] = lcp2 pa pb := rfl
    have hsane : PyVal.str sa ≠ PyVal.str sb := hne
    constructor
    · rw [← hl2]
      exact fun hc => h.2.1 (hl2 ▸ hc)
    · rw [← hl2]
      have hsim := h.2.2
      simp only [attrSimilarity, hb, if_neg hsane, hsim]

/-- C6, witness: HolidayType Adventure vs Skiing scores the relatedness
0.5 of their nearest common ancestor Active; the weight 10 of the
attribute plays no role. -/
theorem tree_match_similarity_witness :
    attrSimilarity (holidayType ("Adventure")) (holidayType ("Skiing")) =
      .ok (1/2) := by
  have h := (tree_match_similarity (holidayType ("Adventure"))
      (holidayType ("Skiing")) holidayTree ("Adventure") ("Skiing")
      [("Arbitrary", 3/10), ("Active", 1/2), ("Adventure", 1)]
      [("Arbitrary", 3/10), ("Active", 1/2), ("Skiing", 1)]
      rfl rfl rfl
      (by simp [holidayTree, findPath, findPathList])
      (by simp [holidayTree, findPath, findPathList])).2
      (by simp [holidayType])
  rw [h.2]
  simp [lcp2]

theorem mergeSort_pair {α : Type} (le : α → α → Bool) (x y : α) :
    [x, y].mergeSort le = if le x y then [x, y] else [y, x] := by
  rw [List.mergeSort]
  have h1 : (List.splitAt.go [x, y] [x, y] 1 []).1 = [x] := rfl
  have h2 : (List.splitAt.go [x, y] [x, y] 1 []).2 = [y] := rfl
  by_cases h : le x y
  · simp [h1, h2, List.merge, h]
  · simp [h1, h2, List.merge, h]

theorem pyTupleLe_trans (a b c : ℚ × Case)
    (h1 : pyTupleLe a b) (h2 : pyTupleLe b c) : pyTupleLe a c := by
  unfold pyTupleLe at h1 h2 ⊢
  by_cases hab : a.1 = b.1
  · by_cases hbc : b.1 = c.1
    · have hac : a.1 = c.1 := hab.trans hbc
      rw [if_pos hab] at h1
      rw [if_pos hbc] at h2
      rw [if_pos hac]
      simp only [decide_eq_true_eq] at h1 h2 ⊢
      omega
    · have hac : ¬ a.1 = c.1 := by rw [hab]; exact hbc
      rw [if_neg hbc] at h2
      rw [if_neg hac]
      rw [hab]
      exact h2
  · by_cases hbc : b.1 = c.1
    · have hac : ¬ a.1 = c.1 := fun he => hab (he.trans hbc.symm)
      rw [if_neg hab] at h1
      rw [if_neg hac]
      rw [← hbc]
      exact h1
    · rw [if_neg hab] at h1
      rw [if_neg hbc] at h2
      simp only [decide_eq_true_eq] at h1 h2
      have hlt : c.1 < a.1 := lt_trans h2 h1
      have hac : ¬ a.1 = c.1 := fun he => absurd (he ▸ hlt) (lt_irrefl _)
      rw [if_neg hac]
      simp only [decide_eq_true_eq]
      exact hlt
  
theorem pyTupleLe_total (a b : ℚ × Case) :
    pyTupleLe a b || pyTupleLe b a := by
  unfold pyTupleLe
  by_cases hab : a.1 = b.1
  · rw [if_pos hab, if_pos hab.symm]
    rcases Nat.le_total b.2.attrs.length a.2.attrs.length with h | h
    · simp [h]
    · simp [h]
  · rw [if_neg hab, if_neg (fun he => hab he.symm)]
    rcases lt_or_gt_of_ne hab with h | h
    · simp [h]
    · simp [h]

theorem pyTupleLe_score (x y : ℚ × Case) (h : pyTupleLe x y) : y.1 ≤ x.1 := by
  unfold pyTupleLe at h
  by_cases hxy : x.1 = y.1
  · exact le_of_eq hxy.symm
  · rw [if_neg hxy] at h
    simp only [decide_eq_true_eq] at h
    exact le_of_lt h

theorem mapM_exc_length {ε α β : Type} (f : α → Except ε β) :
    ∀ (l : List α) (res : List β), l.mapM f = .ok res →
      res.length = l.length := by
  intro l
  induction l with
  | nil =>
    intro res h
    have h2 : Except.ok ([] : List β) = .ok res := h
    rw [← Except.ok.inj h2]
    rfl
  | cons a l ih =>
    intro res h
    rw [List.mapM_cons] at h
    cases hfa : f a with
    | error e => rw [hfa, exc_bind_error] at h; cases h
    | ok b =>
      rw [hfa, exc_bind_ok] at h
      cases hml : l.mapM f with
      | error e => rw [hml, exc_bind_error] at h; cases h
      | ok bs =>
        rw [hml, exc_bind_ok] at h
        have h2 : Except.ok (b :: bs) = .ok res := h
        rw [← Except.ok.inj h2]
        simp [ih bs hml]

/-- C2 (amended): on a successful run, match returns exactly
min(k, number of cases) pairs, sorted non-increasingly by score, and
they are k highest-scoring entries of the zipped (score, case) list:
every returned pair scores at least as high as every pair left out.
Ties between equal scores are broken by the Python 2 comparison of the
Case dicts themselves (under which a case with more attributes precedes
one with fewer in the descending result), NOT by original case-base
order; the result is deterministic across repeated calls. -/
theorem match_topk (query : Case) (cases : List Case) (k : ℕ)
    (sims : List ℚ) (res : List (ℚ × Case))
    (hs : cases.mapM (fun c => caseSimilarity query c) = .ok sims)
    (h : matcherMatch query cases k = .ok res) :
    res.length = Nat.min k cases.length ∧
    res.Pairwise (fun x y => y.1 ≤ x.1) ∧
    ∃ rest, (res ++ rest).Perm (sims.zip cases) ∧
      ∀ x ∈ res, ∀ y ∈ rest, y.1 ≤ x.1 := by
  unfold matcherMatch at h
  rw [hs, exc_bind_ok] at h
  have hres : res = ((sims.zip cases).mergeSort pyTupleLe).take k :=
    (Except.ok.inj h).symm
  subst hres
  have hlen : sims.length = cases.length :=
    mapM_exc_length _ cases sims hs
  have hsorted :=
    List.sorted_mergeSort pyTupleLe_trans pyTupleLe_total (sims.zip cases)
  refine ⟨?_, ?_, ?_⟩
  · simp [List.length_take, List.length_zip, hlen]
  · exact (List.Pairwise.sublist (List.take_sublist k _) hsorted).imp
      (fun {x y} h => pyTupleLe_score x y h)
  · refine ⟨((sims.zip cases).mergeSort pyTupleLe).drop k, ?_, ?_⟩
    · rw [List.take_append_drop]
      exact List.mergeSort_perm (sims.zip cases) pyTupleLe
    · intro x hx y hy
      have hsplit := hsorted
      rw [← List.take_append_drop k ((sims.zip cases).mergeSort pyTupleLe)]
        at hsplit
      have := (List.pairwise_append.mp hsplit).2.2 x hx y hy
      exact pyTupleLe_score x y this

/-- C2, witness: the theorem applied to a one-case base. -/
theorem match_topk_witness :
    ([((0 : ℚ), (⟨[]⟩ : Case))]).Pairwise
      (fun x y : ℚ × Case => y.1 ≤ x.1) := by
  have hs : ([(⟨[]⟩ : Case)]).mapM (fun c => caseSimilarity ⟨[]⟩ c) =
      .ok [0] := rfl
  have hm : matcherMatch ⟨[]⟩ [⟨[]⟩] 1 = .ok [(0, ⟨[]⟩)] := by
    unfold matcherMatch
    rw [hs, exc_bind_ok]
    show (Except.ok (List.take 1
        (([((0 : ℚ), (⟨[]⟩ : Case))]).mergeSort pyTupleLe)) :
        Except PyErr (List (ℚ × Case))) = .ok [(0, ⟨[]⟩)]
    rw [List.mergeSort_singleton]
    rfl
  exact (match_topk ⟨[]⟩ [⟨[]⟩] 1 [0] [(0, ⟨[]⟩)] hs hm).2.1

/-- C2, counterexample: both cases tie at score 1.0, the base order is
[c2caseB, c2caseA], yet match returns c2caseA first: CPython 2 resolves
the tuple tie by comparing the Case dicts, and the smaller dict sorts
after the larger one in the descending result — not the original order
the claim requires. -/
theorem match_tie_not_original_order :
    matcherMatch c2query [c2caseB, c2caseA] 2 =
      .ok [(1, c2caseA), (1, c2caseB)] ∧
    ¬ matcherMatch c2query [c2caseB, c2caseA] 2 =
      .ok [(1, c2caseB), (1, c2caseA)] := by
  have hsB : caseSimilarity c2query c2caseB = .ok 1 := by
    norm_num [caseSimilarity, simLoop, c2query, c2caseB, durAttr,
      Case.lookup, attrSimilarity, linearBody, asNum, exc_bind_ok]
  have hsA : caseSimilarity c2query c2caseA = .ok 1 := by
    norm_num [caseSimilarity, simLoop, c2query, c2caseA, durAttr, jcAttr,
      Case.lookup, attrSimilarity, linearBody, asNum, exc_bind_ok]
  have hm : matcherMatch c2query [c2caseB, c2caseA] 2 =
      .ok [(1, c2caseA), (1, c2caseB)] := by
    unfold matcherMatch
    rw [List.mapM_cons, hsB, exc_bind_ok, List.mapM_cons, hsA, exc_bind_ok,
      List.mapM_nil]
    show (Except.ok (List.take 2
        (([((1 : ℚ), c2caseB), ((1 : ℚ), c2caseA)]).mergeSort pyTupleLe)) :
        Except PyErr (List (ℚ × Case))) = .ok [(1, c2caseA), (1, c2caseB)]
    rw [mergeSort_pair]
    rw [show pyTupleLe (1, c2caseB) (1, c2caseA) = false from by
      simp [pyTupleLe, c2caseA, c2caseB]]
    rfl
  refine ⟨hm, ?_⟩
  rw [hm]
  intro hcontra
  have h2 := Except.ok.inj hcontra
  have h3 := congrArg
    (fun l : List (ℚ × Case) =>
      ((l.headD ((0 : ℚ), Case.mk [])).2.attrs.length)) h2
  simp [c2caseA, c2caseB] at h3

theorem adaptableKeys_keyerror (ne : Attr → Attr → Bool) (query best : Case) :
    ∀ l : List (String × Attr),
      (∃ p ∈ l, p.2.adaptable = true ∧ best.lookup p.1 = none) →
      adaptableKeys ne query best l = .error .keyError := by
  intro l
  induction l with
  | nil =>
    intro h
    obtain ⟨p, hp, _⟩ := h
    cases hp
  | cons a l ih =>
    intro h
    obtain ⟨k, v⟩ := a
    by_cases had : v.adaptable = true
    · cases hlk : best.lookup k with
      | none => simp [adaptableKeys, had, hlk]
      | some bv =>
        have hl : ∃ p ∈ l, p.2.adaptable = true ∧ best.lookup p.1 = none := by
          obtain ⟨p, hp, hpa, hpl⟩ := h
          rw [List.mem_cons] at hp
          rcases hp with hp | hp
          · exfalso
            subst hp
            simp only at hpl
            rw [hpl] at hlk
            cases hlk
          · exact ⟨p, hp, hpa, hpl⟩
        simp only [adaptableKeys, had, if_true, hlk]
        rw [ih hl, exc_bind_error]
    · have hadf : v.adaptable = false := by
        cases hb : v.adaptable
        · rfl
        · exact absurd hb had
      have hl : ∃ p ∈ l, p.2.adaptable = true ∧ best.lookup p.1 = none := by
        obtain ⟨p, hp, hpa, hpl⟩ := h
        rw [List.mem_cons] at hp
        rcases hp with hp | hp
        · exfalso
          subst hp
          simp only at hpa
          rw [hpa] at hadf
          cases hadf
        · exact ⟨p, hp, hpa, hpl⟩
      simp only [adaptableKeys, hadf, Bool.false_eq_true, if_false]
      exact ih hl

/-- C10: whenever the query holds an adaptable attribute under a key
that is absent from the best-ranked case, Matcher.adapt raises KeyError
(best[k] is evaluated in the comprehension with no presence check), not
AdaptationError — for every possible outcome ne of the
identity-dependent != comparison, so in particular for the actual
Python 2 outcome. -/
theorem adapt_missing_key_keyerror (ne : Attr → Attr → Bool)
    (query best : Case) (s : ℚ) (rest : List (ℚ × Case))
    (h : ∃ p ∈ query.attrs, p.2.adaptable = true ∧ best.lookup p.1 = none) :
    matcherAdapt ne query ((s, best) :: rest) = .error .keyError := by
  simp only [matcherAdapt]
  rw [adaptableKeys_keyerror ne query best query.attrs h, exc_bind_error]

/-- C10, witness: the theorem applied at the concrete input. -/
theorem adapt_missing_key_keyerror_witness :
    matcherAdapt pyNeDistinct c10query [((1 : ℚ), c10best)] =
      .error .keyError :=
  adapt_missing_key_keyerror pyNeDistinct c10query c10best 1 []
    ⟨("NumberOfPersons", nopAttr 2), by simp [c10query], rfl, rfl⟩

/-- C4: at the failing input every adaptable attribute present in both
cases has the SAME value, so the claim requires AdaptationError
("no adaptable value differs"); the code instead returns an adapted
result: query[k] != best[k] never consults __eq__ — Attribute defines
__eq__ without __ne__, so CPython 2 falls back to an identity-based
comparison, true for the two distinct objects. -/
theorem adapt_equal_values_still_adapts :
    ((c4query.lookup ("NumberOfPersons")).map (fun a => a.value) =
      (c4best.lookup ("NumberOfPersons")).map (fun a => a.value)) ∧
    (matcherAdapt pyNeDistinct c4query [((1 : ℚ), c4best)]).map Prod.fst =
      .ok ("adapted") := by
  constructor
  · rfl
  · have hk : adaptableKeys pyNeDistinct c4query c4best c4query.attrs =
        .ok ["NumberOfPersons"] := rfl
    have hadapt : caseAdapt c4best c4query = .ok c4adaptedCase := rfl
    have hsim : caseSimilarity c4query c4adaptedCase = .ok 1 := by
      norm_num [caseSimilarity, simLoop, c4query, c4adaptedCase, nopAttr,
        priceAttr, Case.lookup, attrSimilarity, linearBody, asNum,
        exc_bind_ok]
    simp only [matcherAdapt, hk, exc_bind_ok]
    rw [show (["NumberOfPersons"].isEmpty) = false from rfl]
    simp only [Bool.false_eq_true, if_false]
    rw [hadapt, exc_bind_ok, hsim, exc_bind_ok]
    rw [if_neg (by norm_num)]
    rfl

theorem case_set_fresh (c : Case) (k : String) (a : Attr)
    (h : c.attrs.any (fun q => q.1 = k) = false) :
    c.set k a = ⟨c.attrs ++ [(k, a)]⟩ := by
  unfold Case.set
  rw [h]
  rfl

theorem adaptProduct_eq (other : Case) :
    ∀ (l : List (String × Attr)),
      (∀ p ∈ l, p.2.adaptable = true → ∀ o, other.lookup p.2.name = some o →
        (∃ x, p.2.value = .num x ∧ x ≠ 0) ∧ (∃ y, o.value = .num y)) →
      ∀ acc : ℚ, adaptProduct other l acc = .ok (acc * listRatio other l) := by
  intro l
  induction l with
  | nil => intro _ acc; simp [adaptProduct, listRatio]
  | cons hd l ih =>
    intro hv acc
    obtain ⟨k, a⟩ := hd
    by_cases ha : a.adaptable = true
    · cases hlk : other.lookup a.name with
      | none =>
        simp only [adaptProduct, ha, if_true, hlk]
        rw [ih (fun q hq => hv q (List.mem_cons_of_mem _ hq)) acc]
        have hlr : listRatio other ((k, a) :: l) = listRatio other l := by
          simp [listRatio, List.filter_cons, ha, hlk]
        rw [hlr]
      | some o =>
        obtain ⟨⟨x, hx, hx0⟩, ⟨y, hy⟩⟩ :=
          hv ⟨k, a⟩ (List.mem_cons_self _ _) ha o hlk
        have hd : adaptDistance a o = .ok (y / x) := by
          unfold adaptDistance
          rw [if_pos ha, hy]
          show (Except.ok y : Except PyErr ℚ) >>= _ = _
          rw [exc_bind_ok, hx]
          simp [hx0]
        simp only [adaptProduct, ha, if_true, hlk]
        rw [hd, exc_bind_ok]
        rw [ih (fun q hq => hv q (List.mem_cons_of_mem _ hq)) (acc * (y / x))]
        have hx2 : a.value = PyVal.num x := hx
        have hy2 : o.value = PyVal.num y := hy
        have hlr : listRatio other ((k, a) :: l) =
            (y / x) * listRatio other l := by
          simp only [listRatio, List.map_cons, List.filter_cons, ha, hlk,
            Option.isSome_some, Bool.and_true, Bool.true_and, if_true,
            List.prod_cons]
          simp [hx2, hy2, valNum]
        rw [hlr]
        ring_nf
    · have haf : a.adaptable = false := by
        cases hb : a.adaptable
        · rfl
        · exact absurd hb ha
      simp only [adaptProduct, haf, Bool.false_eq_true, if_false]
      rw [ih (fun q hq => hv q (List.mem_cons_of_mem _ hq)) acc]
      have hlr : listRatio other ((k, a) :: l) = listRatio other l := by
        simp [listRatio, List.filter_cons, haf]
      rw [hlr]

theorem adaptBuild_eq (other : Case) (ta : ℚ) :
    ∀ (l : List (String × Attr)) (acc : Case),
      (l.map (fun p => p.2.name)).Nodup →
      (∀ p ∈ l, acc.attrs.any (fun q => q.1 = p.2.name) = false) →
      (∀ p ∈ l,
        ¬(p.2.adaptable = true ∧ (other.lookup p.2.name).isSome = true) →
        p.2.adjustable = true → ∃ v, p.2.value = .num v) →
      adaptBuild other ta l acc =
        .ok ⟨acc.attrs ++
          l.map (fun p => (p.2.name, claimAdaptedAttr other ta p.2))⟩ := by
  intro l
  induction l with
  | nil => intro acc _ _ _; simp [adaptBuild]
  | cons hd l ih =>
    intro acc hnd hfresh hadj
    obtain ⟨k, a⟩ := hd
    rw [List.map_cons] at hnd
    have hfresh_head : acc.attrs.any (fun q => q.1 = a.name) = false :=
      hfresh ⟨k, a⟩ (List.mem_cons_self _ _)
    have hstep : ∀ x : Attr,
        adaptBuild other ta l ⟨acc.attrs ++ [(a.name, x)]⟩ =
          .ok ⟨(acc.attrs ++ [(a.name, x)]) ++
            l.map (fun p => (p.2.name, claimAdaptedAttr other ta p.2))⟩ := by
      intro x
      apply ih
      · exact (List.nodup_cons.mp hnd).2
      · intro p hp
        rw [List.any_append, hfresh p (List.mem_cons_of_mem _ hp)]
        have hne : a.name ≠ p.2.name := by
          intro he
          have h1 : a.name ∈ l.map (fun p => p.2.name) := by
            rw [he]
            exact List.mem_map_of_mem _ hp
          exact (List.nodup_cons.mp hnd).1 h1
        simp [hne]
      · intro p hp h1 h2
        exact hadj p (List.mem_cons_of_mem _ hp) h1 h2
    cases hlk : other.lookup a.name with
    | some o =>
      by_cases ha : a.adaptable = true
      · simp only [adaptBuild, hlk, ha, if_true]
        rw [case_set_fresh acc a.name o hfresh_head, hstep o]
        have hca : claimAdaptedAttr other ta a = o := by
          unfold claimAdaptedAttr
          rw [if_pos ⟨ha, by rw [hlk]; rfl⟩, hlk]
          rfl
        simp only [List.map_cons, hca, List.append_assoc,
          List.singleton_append]
      · have haf : a.adaptable = false := by
          cases hb : a.adaptable
          · rfl
          · exact absurd hb ha
        by_cases hj : a.adjustable = true
        · obtain ⟨v, hv⟩ := hadj ⟨k, a⟩ (List.mem_cons_self _ _)
            (by simp [haf]) hj
          have hv2 : a.value = PyVal.num v := hv
          have hadjusted : adjusted a ta =
              .ok { a with value := adjustedValue a.numeric v ta } := by
            unfold adjusted adjustedValue
            rw [if_pos hj, hv2]
          simp only [adaptBuild, hlk, haf, Bool.false_eq_true, if_false,
            hj, if_true, hadjusted, exc_bind_ok]
          rw [case_set_fresh acc a.name _ hfresh_head, hstep _]
          have hca : claimAdaptedAttr other ta a =
              { a with value := adjustedValue a.numeric v ta } := by
            unfold claimAdaptedAttr adjustedValue
            rw [if_neg (by simp [haf]), if_pos hj]
            have hvn : valNum a.value = v := by rw [hv2]; rfl
            rw [hvn]
          simp only [List.map_cons, hca, List.append_assoc,
            List.singleton_append, haf, hj]
        · have hjf : a.adjustable = false := by
            cases hb : a.adjustable
            · rfl
            · exact absurd hb hj
          simp only [adaptBuild, hlk, haf, Bool.false_eq_true, if_false, hjf]
          rw [case_set_fresh acc a.name a hfresh_head, hstep a]
          have hca : claimAdaptedAttr other ta a = a := by
            unfold claimAdaptedAttr
            rw [if_neg (by simp [haf]), if_neg (by simp [hjf])]
          simp only [List.map_cons, hca, List.append_assoc,
            List.singleton_append, haf, hjf]
    | none =>
      by_cases hj : a.adjustable = true
      · obtain ⟨v, hv⟩ := hadj ⟨k, a⟩ (List.mem_cons_self _ _)
          (by simp [hlk]) hj
        have hv2 : a.value = PyVal.num v := hv
        have hadjusted : adjusted a ta =
            .ok { a with value := adjustedValue a.numeric v ta } := by
          unfold adjusted adjustedValue
          rw [if_pos hj, hv2]
        simp only [adaptBuild, hlk, hj, if_true, hadjusted, exc_bind_ok]
        rw [case_set_fresh acc a.name _ hfresh_head, hstep _]
        have hca : claimAdaptedAttr other ta a =
            { a with value := adjustedValue a.numeric v ta } := by
          unfold claimAdaptedAttr adjustedValue
          rw [if_neg (by simp [hlk]), if_pos hj]
          have hvn : valNum a.value = v := by rw [hv2]; rfl
          rw [hvn]
        simp only [List.map_cons, hca, List.append_assoc,
          List.singleton_append, hj]
      · have hjf : a.adjustable = false := by
          cases hb : a.adjustable
          · rfl
          · exact absurd hb hj
        simp only [adaptBuild, hlk, hjf, Bool.false_eq_true, if_false]
        rw [case_set_fresh acc a.name a hfresh_head, hstep a]
        have hca : claimAdaptedAttr other ta a = a := by
          unfold claimAdaptedAttr
          rw [if_neg (by simp [hlk]), if_neg (by simp [hjf])]
        simp only [List.map_cons, hca, List.append_assoc,
          List.singleton_append, hjf]

/-- C3 (amended): Case.adapt first computes the combined ratio as the
product of other.value / self.value over every adaptable attribute of
self present by name in other, then builds the new case in which each
adaptable attribute present in other takes the attribute of other
verbatim, each adjustable attribute is rebuilt from value * ratio — with
truncation through int() when the class is Numeric, as for Price — and
every other attribute is copied unchanged.  Hypotheses: distinct
attribute names, nonzero numeric values for the adaptable attributes
involved, numeric values for the adjustable ones. -/
theorem case_adapt_spec (self other : Case)
    (hnd : (self.attrs.map (fun p => p.2.name)).Nodup)
    (hada : ∀ p ∈ self.attrs, p.2.adaptable = true →
      ∀ o, other.lookup p.2.name = some o →
        (∃ x, p.2.value = .num x ∧ x ≠ 0) ∧ (∃ y, o.value = .num y))
    (hadj : ∀ p ∈ self.attrs,
      ¬(p.2.adaptable = true ∧ (other.lookup p.2.name).isSome = true) →
      p.2.adjustable = true → ∃ v, p.2.value = .num v) :
    caseAdapt self other =
      .ok ⟨self.attrs.map (fun p =>
        (p.2.name, claimAdaptedAttr other (claimAdaptRatio self other) p.2))⟩ := by
  unfold caseAdapt
  rw [adaptProduct_eq other self.attrs hada 1, exc_bind_ok, one_mul]
  have h := adaptBuild_eq other (listRatio other self.attrs) self.attrs ⟨[]⟩
    hnd (by intro p hp; rfl) hadj
  rw [h]
  rw [show claimAdaptRatio self other = listRatio other self.attrs from rfl]
  rw [List.nil_append]

theorem c3_hada : ∀ p ∈ c3self.attrs, p.2.adaptable = true →
    ∀ o, c3other.lookup p.2.name = some o →
      (∃ x, p.2.value = PyVal.num x ∧ x ≠ 0) ∧
      (∃ y, o.value = PyVal.num y) := by
  intro p hp ha o ho
  simp only [c3self, List.mem_cons, List.mem_singleton] at hp
  rcases hp with hp | hp | hp
  · exfalso
    subst hp
    simp [priceAttr] at ha
  · subst hp
    have ho2 := ho
    simp [c3other, Case.lookup, nopAttr] at ho2
    refine ⟨⟨2, rfl, by norm_num⟩, ⟨3, ?_⟩⟩
    rw [← ho2]
  · cases hp

theorem c3_hadj : ∀ p ∈ c3self.attrs,
    ¬(p.2.adaptable = true ∧ (c3other.lookup p.2.name).isSome = true) →
    p.2.adjustable = true → ∃ v, p.2.value = PyVal.num v := by
  intro p hp h1 _
  simp only [c3self, List.mem_cons, List.mem_singleton] at hp
  rcases hp with hp | hp | hp
  · subst hp
    exact ⟨101, rfl⟩
  · exfalso
    subst hp
    simp [nopAttr, c3other, Case.lookup] at h1
  · cases hp

theorem c3_ratio_eval : listRatio c3other c3self.attrs = 3 / 2 := by
  norm_num [listRatio, c3self, c3other, Case.lookup, priceAttr, nopAttr,
    valNum]

theorem c3_pyInt_eval : pyInt ((303 : ℚ) / 2) = 151 := by
  norm_num [pyInt]
  decide

theorem c3_adapt_eval :
    caseAdapt c3self c3other =
      .ok ⟨[("Price", { priceAttr 101 with value := .num 151 }),
            ("NumberOfPersons", nopAttr 3)]⟩ := by
  unfold caseAdapt
  rw [adaptProduct_eq c3other c3self.attrs c3_hada 1, exc_bind_ok, one_mul]
  rw [adaptBuild_eq c3other (listRatio c3other c3self.attrs) c3self.attrs
    ⟨[]⟩ (by simp [c3self, priceAttr, nopAttr]) (by intro p hp; rfl) c3_hadj]
  rw [c3_ratio_eval]
  norm_num [c3self, c3other, claimAdaptedAttr, priceAttr, nopAttr,
    Case.lookup, valNum, c3_pyInt_eval]

/-- C3, witness: adapting c3self to c3other snaps NumberOfPersons to 3
and adjusts Price to int(101 * 3/2) = 151. -/
theorem case_adapt_spec_witness :
    caseAdapt c3self c3other =
      .ok ⟨[("Price", { priceAttr 101 with value := .num 151 }),
            ("NumberOfPersons", nopAttr 3)]⟩ := by
  have h := case_adapt_spec c3self c3other
    (by simp [c3self, priceAttr, nopAttr]) c3_hada c3_hadj
  rw [h]
  rw [show claimAdaptRatio c3self c3other = 3 / 2 from c3_ratio_eval]
  norm_num [c3self, c3other, claimAdaptedAttr, priceAttr, nopAttr,
    Case.lookup, valNum, c3_pyInt_eval]

/-- C3, counterexample: the adjusted Price value the code stores is
int(101 * 3/2) = 151, not the exact product 101 * 3/2 = 151.5 that the
claim states. -/
theorem case_adapt_truncates_counterexample :
    ((caseAdapt c3self c3other).toOption.bind
      (fun c => (c.lookup ("Price")).map (fun a => a.value))) =
        some (.num 151) ∧
    PyVal.num 151 ≠ .num (101 * (3 / 2)) := by
  constructor
  · rw [c3_adapt_eval]
    rfl
  · intro h
    have h2 := PyVal.num.inj h
    norm_num at h2
